import Mathlib

/-!
Verification development for the `just_fmt` crate: a shallow embedding of
`src/fmt_case_style.rs` (word-case conversion) and `src/fmt_path.rs`
(path-string normalization), with theorems settling the specification's
claims about them.

Strings are embedded as `List Char`.  Rust's `char`-level methods
(`to_lowercase`, `is_lowercase`, ...) are Unicode-aware, but every place the
source applies them the characters in scope are ASCII (letters, digits,
separators, path punctuation), where they coincide with the ASCII
transformations used here; each definition's doc comment records the
correspondence.
-/

namespace JustFmt

/-- ASCII letter-or-digit test, mirroring the match arm
`'a'..='z' | 'A'..='Z' | '0'..='9'` of `str_split` in `fmt_case_style.rs`. -/
def isAlnumChar (c : Char) : Bool :=
  ('a' ≤ c && c ≤ 'z') || ('A' ≤ c && c ≤ 'Z') || ('0' ≤ c && c ≤ '9')

/-- Separator-character test, mirroring the match arm
`'_' | ',' | '.' | '-' | ' '` of `str_split`. -/
def isSepChar (c : Char) : Bool :=
  c == '_' || c == ',' || c == '.' || c == '-' || c == ' '

/-- Lowercase test used at the camel boundary.  Rust's `char::is_lowercase`
is Unicode-aware, but `str_split` only applies it to characters of the first
pass's output (ASCII letters, digits and spaces); on that alphabet it equals
this ASCII range test. -/
def isLowerChar (c : Char) : Bool := 'a' ≤ c && c ≤ 'z'

/-- Uppercase test used at the camel boundary; see `isLowerChar`. -/
def isUpperChar (c : Char) : Bool := 'A' ≤ c && c ≤ 'Z'

/-- First pass of `str_split`: copy ASCII letters/digits through, emit a
single space for a run of separator characters (the `prev_space` flag), and
drop every other character without touching the flag. -/
def strSplitPass1 : List Char → Bool → List Char
  | [], _ => []
  | c :: cs, prevSpace =>
    if isAlnumChar c then c :: strSplitPass1 cs false
    else if isSepChar c then
      if prevSpace then strSplitPass1 cs true
      else ' ' :: strSplitPass1 cs true
    else strSplitPass1 cs prevSpace

/-- Second pass of `str_split`: walk the compressed string and insert a
space between a lowercase character and an immediately following uppercase
character (the `chars.peek()` loop). -/
def strSplitPass2 : List Char → List Char
  | [] => []
  | [c] => [c]
  | c :: next :: rest =>
    if isLowerChar c && isUpperChar next then
      c :: ' ' :: strSplitPass2 (next :: rest)
    else
      c :: strSplitPass2 (next :: rest)

/-- Linear scan behind `splitWhitespaceList`, carrying the reversed current
fragment. -/
def splitWhitespaceAux : List Char → List Char → List (List Char)
  | [], acc => if acc.isEmpty then [] else [acc.reverse]
  | c :: cs, acc =>
    if c = ' ' then
      if acc.isEmpty then splitWhitespaceAux cs []
      else acc.reverse :: splitWhitespaceAux cs []
    else splitWhitespaceAux cs (c :: acc)

/-- Rust's `split_whitespace`: split on runs of whitespace, discarding empty
fragments.  In `str_split` the string it receives contains `' '` as its only
whitespace character, so splitting on `' '` is faithful. -/
def splitWhitespaceList (l : List Char) : List (List Char) :=
  splitWhitespaceAux l []

/-- The tokenizer `str_split` of `fmt_case_style.rs`: classify/compress,
insert camel boundaries, lowercase (Rust's Unicode `to_lowercase` equals
`Char.toLower` on the ASCII alphabet present here), split on whitespace. -/
def str_split (input : List Char) : List (List Char) :=
  splitWhitespaceList ((strSplitPass2 (strSplitPass1 input false)).map Char.toLower)

/-- Rust's `Vec::join` on strings: concatenate the elements with the
separator between consecutive elements. -/
def joinSep (sep : Char) : List (List Char) → List Char
  | [] => []
  | [w] => w
  | w :: ws => w ++ sep :: joinSep sep ws

/-- The `CaseFormatter` struct: an owned token list built once from the
input. -/
structure CaseFormatter where
  content : List (List Char)

/-- The `From<String>` / `From<&str>` constructors: tokenize immediately. -/
def CaseFormatter.fromString (value : List Char) : CaseFormatter :=
  ⟨str_split value⟩

/-- The per-word capitalization used by `to_camel_case`, `to_pascal_case`
and `to_title_case`: first character uppercased, remainder lowercased
(Rust's `to_uppercase` / `to_lowercase` on ASCII tokens). -/
def capitalizeWord (w : List Char) : List Char :=
  match w with
  | [] => []
  | first :: rest => Char.toUpper first :: rest.map Char.toLower

/-- The renderer `to_camel_case`: first token pushed lowercased, each later
token capitalized, concatenated with no separator. -/
def CaseFormatter.to_camel_case (f : CaseFormatter) : List Char :=
  match f.content with
  | [] => []
  | w :: ws => w.map Char.toLower ++ (ws.map capitalizeWord).flatten

/-- The renderer `to_pascal_case`: every token capitalized, concatenated. -/
def CaseFormatter.to_pascal_case (f : CaseFormatter) : List Char :=
  (f.content.map capitalizeWord).flatten

/-- The renderer `to_kebab_case`: `content.join("-").to_lowercase()`. -/
def CaseFormatter.to_kebab_case (f : CaseFormatter) : List Char :=
  (joinSep '-' f.content).map Char.toLower

/-- The renderer `to_snake_case`: `content.join("_").to_lowercase()`. -/
def CaseFormatter.to_snake_case (f : CaseFormatter) : List Char :=
  (joinSep '_' f.content).map Char.toLower

/-- The renderer `to_dot_case`: `content.join(".").to_lowercase()`. -/
def CaseFormatter.to_dot_case (f : CaseFormatter) : List Char :=
  (joinSep '.' f.content).map Char.toLower

/-- The renderer `to_title_case`: each token capitalized and followed by a
pushed space, with the final character popped at the end. -/
def CaseFormatter.to_title_case (f : CaseFormatter) : List Char :=
  ((f.content.map (fun w => capitalizeWord w ++ [' '])).flatten).dropLast

/-- The renderer `to_lower_case`: `content.join(" ").to_lowercase()`. -/
def CaseFormatter.to_lower_case (f : CaseFormatter) : List Char :=
  (joinSep ' ' f.content).map Char.toLower

/-- The renderer `to_upper_case`: `content.join(" ").to_uppercase()`. -/
def CaseFormatter.to_upper_case (f : CaseFormatter) : List Char :=
  (joinSep ' ' f.content).map Char.toUpper

/-! ## Path normalizer (`src/fmt_path.rs`) -/

/-- The sole error kind of `fmt_path.rs`: `PathFormatError::InvalidUtf8`.
The Rust variant carries the underlying `FromUtf8Error`; the payload plays
no role in any claim and is elided. -/
inductive PathFormatError where
  | InvalidUtf8
deriving DecidableEq

/-- The `PathFormatConfig` struct, with the `strip-ansi` feature compiled
in so that all five toggles of the specification are present. -/
structure PathFormatConfig where
  strip_ansi : Bool
  strip_unfriendly_chars : Bool
  resolve_parent_dirs : Bool
  collapse_consecutive_slashes : Bool
  escape_backslashes : Bool
deriving DecidableEq

/-- The `Default` impl: every toggle enabled. -/
def PathFormatConfig.default : PathFormatConfig :=
  ⟨true, true, true, true, true⟩

/-- A component of Rust's `std::path::Path` on a Unix-style platform (no
`Prefix` component exists there). -/
inductive PathComponent where
  | rootDir
  | curDir
  | parentDir
  | normal (s : List Char)
deriving DecidableEq

/-- Rust std's `Path::components()` on Unix: a leading `/` yields `RootDir`;
the remainder is split on `/` with empty pieces skipped; a `.` piece becomes
a `CurDir` component only when the whole path is `.` or starts with `./`
(and has no root), otherwise it is skipped; `..` becomes `ParentDir`; any
other piece is a `Normal` component. -/
def pathComponents (s : List Char) : List PathComponent :=
  let hasRoot : Bool := s.head? == some '/'
  let includeCur : Bool := !hasRoot && (s == ['.'] || s.take 2 == ['.', '/'])
  let pieces := (s.splitOn '/').filter (fun p => !p.isEmpty)
  let comps := pieces.filterMap (fun p =>
    if p = ['.'] then none
    else if p = ['.', '.'] then some PathComponent.parentDir
    else some (PathComponent.normal p))
  (if hasRoot then [PathComponent.rootDir] else []) ++
    (if includeCur then [PathComponent.curDir] else []) ++ comps

/-- The loop of `normalize_path` in `fmt_path.rs`, with the `Vec` of kept
components as the accumulator: `ParentDir` pops the most recent component
when the vector is non-empty, `CurDir` is skipped, everything else
(including `RootDir`) is pushed. -/
def normalizePathLoop : List PathComponent → List PathComponent → List PathComponent
  | [], components => components
  | PathComponent.parentDir :: rest, components =>
    normalizePathLoop rest (if components.isEmpty then components else components.dropLast)
  | PathComponent.curDir :: rest, components => normalizePathLoop rest components
  | c :: rest, components => normalizePathLoop rest (components ++ [c])

/-- The function `normalize_path`: run the stack loop over the components;
an empty result becomes `PathBuf::from(".")`, whose single component is
`CurDir`. -/
def normalize_path (comps : List PathComponent) : List PathComponent :=
  let components := normalizePathLoop comps []
  if components.isEmpty then [PathComponent.curDir] else components

/-- The textual form of one component (Unix). -/
def componentString : PathComponent → List Char
  | PathComponent.rootDir => ['/']
  | PathComponent.curDir => ['.']
  | PathComponent.parentDir => ['.', '.']
  | PathComponent.normal s => s

/-- Collecting a component list into a `PathBuf` and taking its string form
on Unix: components are joined with `/`, except that no separator follows a
leading `RootDir` (which itself prints as `/`). -/
def renderComponents : List PathComponent → List Char
  | [] => []
  | PathComponent.rootDir :: rest =>
    '/' :: List.intercalate ['/'] (rest.map componentString)
  | comps => List.intercalate ['/'] (comps.map componentString)

/-- The replacement `.replace('\\', "/")` applied per character. -/
def replaceBackslash (c : Char) : Char :=
  if c = '\\' then '/' else c

/-- The slash-collapsing scan of `fmt_path_str_custom`: drop a `/` whose
previously emitted character (`prev_char`, initially `'\0'`) was also `/`,
but only when the toggle is on; a skipped character leaves `prev_char`
untouched. -/
def collapseSlashLoop (collapse : Bool) : List Char → Char → List Char
  | [], _ => []
  | c :: cs, prevChar =>
    if collapse && c == '/' && prevChar == '/' then
      collapseSlashLoop collapse cs prevChar
    else c :: collapseSlashLoop collapse cs c

/-- The `unfriendly_chars` array of `fmt_path_str_custom`. -/
def unfriendlyChars : List Char := ['*', '?', '"', '<', '>', '|']

/-- Everything `fmt_path_str_custom` does after the ANSI-strip step, on the
stripped string: replace backslashes when enabled, collapse consecutive
slashes when enabled, strip unfriendly characters when enabled, resolve
`..` via `normalize_path` when enabled, unconditionally replace backslashes
in the reassembled string (`to_string_lossy().replace('\\', "/")`), restore
the trailing slash recorded from the original input, and collapse a final
`./` to the empty string. -/
def fmtPathAfterStrip (stripped : List Char) (ends_with_slash : Bool)
    (config : PathFormatConfig) : List Char :=
  let unescaped :=
    if config.escape_backslashes then stripped.map replaceBackslash else stripped
  let collapsed := collapseSlashLoop config.collapse_consecutive_slashes unescaped '\x00'
  let filtered :=
    if config.strip_unfriendly_chars then
      collapsed.filter (fun c => !unfriendlyChars.contains c)
    else collapsed
  let normalized :=
    if config.resolve_parent_dirs then
      renderComponents (normalize_path (pathComponents filtered))
    else filtered
  let result := normalized.map replaceBackslash
  let result :=
    if ends_with_slash && !(result.getLast? == some '/') then result ++ ['/']
    else result
  if result = ['.', '/'] then [] else result

/-- The function `fmt_path_str_custom`.  The external ANSI stripper
(`strip_ansi_escapes::strip` followed by `String::from_utf8`) lives outside
this repository and is passed in abstractly as `stripAnsiFn`: `some` is the
stripped text, `none` is the UTF-8 decode failure.  The trailing-slash flag
is computed from the original input before stripping, as in the source. -/
def fmt_path_str_custom (stripAnsiFn : List Char → Option (List Char))
    (path : List Char) (config : PathFormatConfig) :
    Except PathFormatError (List Char) :=
  match (if config.strip_ansi then stripAnsiFn path else some path) with
  | none => Except.error PathFormatError.InvalidUtf8
  | some stripped =>
    Except.ok (fmtPathAfterStrip stripped (path.getLast? == some '/') config)

/-- The function `fmt_path_str`: `fmt_path_str_custom` with the default
configuration. -/
def fmt_path_str (stripAnsiFn : List Char → Option (List Char))
    (path : List Char) : Except PathFormatError (List Char) :=
  fmt_path_str_custom stripAnsiFn path PathFormatConfig.default

/-! ## Derived predicates and spec-side definitions -/

/-- Lowercase ASCII letter or digit: the character alphabet of the token
sequence. -/
def isLowerAlnum (c : Char) : Bool :=
  ('a' ≤ c && c ≤ 'z') || ('0' ≤ c && c ≤ '9')

/-- All tokens of a list are non-empty and drawn from the lowercase
alphanumeric alphabet: the data-model invariant of the token sequence. -/
def tokensOk (ws : List (List Char)) : Prop :=
  ∀ w ∈ ws, w ≠ [] ∧ ∀ c ∈ w, isLowerAlnum c = true

/-- The lowercase-to-uppercase transition test of the second pass. -/
def camelBoundary (a b : Char) : Bool := isLowerChar a && isUpperChar b

/-- Tokens whose camelCase/PascalCase renderings re-tokenize exactly: at
least two characters, all lowercase alphanumerics, and a lowercase letter
at both ends. -/
def camelToken (w : List Char) : Prop :=
  2 ≤ w.length ∧ (∀ c ∈ w, isLowerAlnum c = true) ∧
  isLowerChar (w.headD ' ') = true ∧ isLowerChar (w.getLastD ' ') = true

instance (w : List Char) : Decidable (camelToken w) := by
  unfold camelToken
  infer_instance

/-- Stack-walk normalization written from the specification's words
(§4.3 step 6): fold the components left to right against a stack whose most
recent element sits at the head; a regular component is pushed, a
current-directory component is dropped, a parent-directory component pops
the most recent stacked component when the stack is non-empty and is
silently ignored otherwise; if every component was consumed the result is
the single current-directory component. -/
def normalizeSpecWalk (comps : List PathComponent) : List PathComponent :=
  let stack := comps.foldl (fun stack c =>
    match c with
    | PathComponent.curDir => stack
    | PathComponent.parentDir => if stack.isEmpty then stack else stack.tail
    | c => c :: stack) []
  if stack.isEmpty then [PathComponent.curDir] else stack.reverse

/-- The all-toggles-off configuration of the specification's frame
property. -/
def allTogglesOff : PathFormatConfig := ⟨false, false, false, false, false⟩

/-! ## Character-level facts

The ASCII facts below are proved once by exhausting the 128 seven-bit code
points; every character reaching these functions is bounded by one of the
range tests. -/

theorem toNat_lt_128_of_le (c z : Char) (hz : z.toNat < 128) (h : c ≤ z) :
    c.toNat < 128 := by
  have h1 : c.val.toBitVec.toNat ≤ z.val.toBitVec.toNat :=
    BitVec.le_def.mp (UInt32.le_def.mp (Char.le_def.mp h))
  have h2 : Char.toNat c = c.val.toBitVec.toNat := rfl
  have h3 : Char.toNat z = z.val.toBitVec.toNat := rfl
  omega

theorem toNat_lt_of_isAlnumChar (c : Char) (h : isAlnumChar c = true) :
    c.toNat < 128 := by
  unfold isAlnumChar at h
  rcases Bool.or_eq_true_iff.mp h with h' | h3
  · rcases Bool.or_eq_true_iff.mp h' with h1 | h2
    · exact toNat_lt_128_of_le c 'z' (by decide)
        (of_decide_eq_true (Bool.and_eq_true_iff.mp h1).2)
    · exact toNat_lt_128_of_le c 'Z' (by decide)
        (of_decide_eq_true (Bool.and_eq_true_iff.mp h2).2)
  · exact toNat_lt_128_of_le c '9' (by decide)
      (of_decide_eq_true (Bool.and_eq_true_iff.mp h3).2)

theorem toNat_lt_of_isLowerAlnum (c : Char) (h : isLowerAlnum c = true) :
    c.toNat < 128 := by
  unfold isLowerAlnum at h
  rcases Bool.or_eq_true_iff.mp h with h1 | h2
  · exact toNat_lt_128_of_le c 'z' (by decide)
      (of_decide_eq_true (Bool.and_eq_true_iff.mp h1).2)
  · exact toNat_lt_128_of_le c '9' (by decide)
      (of_decide_eq_true (Bool.and_eq_true_iff.mp h2).2)

theorem toNat_lt_of_isLowerChar (c : Char) (h : isLowerChar c = true) :
    c.toNat < 128 :=
  toNat_lt_128_of_le c 'z' (by decide)
    (of_decide_eq_true (Bool.and_eq_true_iff.mp h).2)

theorem charOfNatCases (P : Char → Prop) [DecidablePred P]
    (h : ∀ n : Nat, n < 128 → P (Char.ofNat n)) (c : Char)
    (hc : c.toNat < 128) : P c := by
  have := h c.toNat hc
  rwa [Char.ofNat_toNat] at this

theorem toLower_lowerAlnum_of_alnum (c : Char) (h : isAlnumChar c = true) :
    isLowerAlnum (Char.toLower c) = true := by
  refine charOfNatCases
    (fun c => isAlnumChar c = true → isLowerAlnum (Char.toLower c) = true) ?_
    c (toNat_lt_of_isAlnumChar c h) h
  decide

theorem lowerAlnum_facts (c : Char) (h : isLowerAlnum c = true) :
    Char.toLower c = c ∧ Char.toLower (Char.toUpper c) = c ∧
    isAlnumChar c = true ∧ isAlnumChar (Char.toUpper c) = true ∧
    isUpperChar c = false ∧ isLowerChar (Char.toUpper c) = false ∧
    ¬ c = ' ' ∧ ¬ Char.toUpper c = ' ' ∧
    isUpperChar (Char.toUpper c) = isLowerChar c := by
  refine charOfNatCases
    (fun c => isLowerAlnum c = true →
      Char.toLower c = c ∧ Char.toLower (Char.toUpper c) = c ∧
      isAlnumChar c = true ∧ isAlnumChar (Char.toUpper c) = true ∧
      isUpperChar c = false ∧ isLowerChar (Char.toUpper c) = false ∧
      ¬ c = ' ' ∧ ¬ Char.toUpper c = ' ' ∧
      isUpperChar (Char.toUpper c) = isLowerChar c) ?_
    c (toNat_lt_of_isLowerAlnum c h) h
  decide

theorem lowerChar_lowerAlnum (c : Char) (h : isLowerChar c = true) :
    isLowerAlnum c = true := by
  refine charOfNatCases (fun c => isLowerChar c = true → isLowerAlnum c = true) ?_
    c (toNat_lt_of_isLowerChar c h) h
  decide

/-! ## The token-sequence invariant -/

/-- Every character the first pass emits is an ASCII alphanumeric or the
single space standing for a separator run. -/
theorem strSplitPass1_chars : ∀ (l : List Char) (b : Bool) (c : Char),
    c ∈ strSplitPass1 l b → isAlnumChar c = true ∨ c = ' ' := by
  intro l
  induction l with
  | nil => intro b c hc; simp [strSplitPass1] at hc
  | cons d cs ih =>
    intro b c hc
    unfold strSplitPass1 at hc
    split at hc
    · rcases List.mem_cons.mp hc with rfl | h'
      · exact Or.inl ‹_›
      · exact ih _ _ h'
    · split at hc
      · split at hc
        · exact ih _ _ hc
        · rcases List.mem_cons.mp hc with rfl | h'
          · exact Or.inr rfl
          · exact ih _ _ h'
      · exact ih _ _ hc

/-- The boundary pass only inserts spaces: every character of its output is
a character of its input or a space. -/
theorem strSplitPass2_chars : ∀ (l : List Char) (c : Char),
    c ∈ strSplitPass2 l → c ∈ l ∨ c = ' ' := by
  intro l
  induction l with
  | nil => intro c hc; simp [strSplitPass2] at hc
  | cons d cs ih =>
    intro c hc
    cases cs with
    | nil =>
      simp only [strSplitPass2, List.mem_singleton] at hc
      exact Or.inl (hc ▸ List.mem_singleton.mpr rfl)
    | cons e rest =>
      unfold strSplitPass2 at hc
      split at hc
      · rcases List.mem_cons.mp hc with rfl | h'
        · exact Or.inl (List.mem_cons_self _ _)
        · rcases List.mem_cons.mp h' with rfl | h''
          · exact Or.inr rfl
          · rcases ih _ h'' with h3 | h3
            · exact Or.inl (List.mem_cons_of_mem _ h3)
            · exact Or.inr h3
      · rcases List.mem_cons.mp hc with rfl | h'
        · exact Or.inl (List.mem_cons_self _ _)
        · rcases ih _ h' with h3 | h3
          · exact Or.inl (List.mem_cons_of_mem _ h3)
          · exact Or.inr h3

/-- Soundness of the whitespace splitter: with every input character a
space or a `P`-character and every accumulator character a `P`-character,
every emitted fragment is non-empty and all its characters satisfy `P`. -/
theorem splitWhitespaceAux_sound (P : Char → Prop) :
    ∀ (l acc : List Char), (∀ c ∈ l, c = ' ' ∨ P c) → (∀ c ∈ acc, P c) →
    ∀ w ∈ splitWhitespaceAux l acc, w ≠ [] ∧ ∀ c ∈ w, P c := by
  intro l
  induction l with
  | nil =>
    intro acc _ hacc w hw
    unfold splitWhitespaceAux at hw
    split at hw
    · simp at hw
    · rcases List.mem_singleton.mp hw with rfl
      refine ⟨?_, ?_⟩
      · simp only [ne_eq, List.reverse_eq_nil_iff]
        intro h; rename_i hne; exact hne (by simp [h, List.isEmpty_iff])
      · intro c hc; exact hacc c (List.mem_reverse.mp hc)
  | cons d cs ih =>
    intro acc hl hacc w hw
    unfold splitWhitespaceAux at hw
    split at hw
    · split at hw
      · exact ih [] (fun c hc => hl c (List.mem_cons_of_mem _ hc)) (by simp) w hw
      · rcases List.mem_cons.mp hw with rfl | h'
        · refine ⟨?_, ?_⟩
          · simp only [ne_eq, List.reverse_eq_nil_iff]
            intro h; rename_i hne; exact hne (by simp [h, List.isEmpty_iff])
          · intro c hc; exact hacc c (List.mem_reverse.mp hc)
        · exact ih [] (fun c hc => hl c (List.mem_cons_of_mem _ hc)) (by simp) w h'
    · refine ih (d :: acc) (fun c hc => hl c (List.mem_cons_of_mem _ hc)) ?_ w hw
      intro c hc
      rcases List.mem_cons.mp hc with rfl | h'
      · rcases hl c (List.mem_cons_self _ _) with h3 | h3
        · exact absurd h3 ‹¬ _ = ' '›
        · exact h3
      · exact hacc c h'

/-- The token-sequence invariant of `str_split`: every token is non-empty
and consists solely of lowercase ASCII letters and digits. -/
theorem str_split_tokens (input : List Char) :
    ∀ w ∈ str_split input, w ≠ [] ∧ ∀ c ∈ w, isLowerAlnum c = true := by
  intro w hw
  refine splitWhitespaceAux_sound (fun c => isLowerAlnum c = true) _ [] ?_ (by simp) w hw
  intro c hc
  rcases List.mem_map.mp hc with ⟨d, hd, rfl⟩
  rcases strSplitPass2_chars _ _ hd with hd2 | rfl
  · rcases strSplitPass1_chars _ _ _ hd2 with hd3 | rfl
    · exact Or.inr (toLower_lowerAlnum_of_alnum _ hd3)
    · exact Or.inl (by decide)
  · exact Or.inl (by decide)

/-! ## Re-tokenization of rendered strings -/

theorem mem_joinSep (sep : Char) : ∀ (ws : List (List Char)) (c : Char),
    c ∈ joinSep sep ws → c = sep ∨ ∃ w ∈ ws, c ∈ w := by
  intro ws
  induction ws with
  | nil => intro c hc; simp [joinSep] at hc
  | cons w ws ih =>
    intro c hc
    cases ws with
    | nil => exact Or.inr ⟨w, List.mem_singleton.mpr rfl, hc⟩
    | cons w' ws' =>
      rcases List.mem_append.mp hc with h | h
      · exact Or.inr ⟨w, List.mem_cons_self _ _, h⟩
      · rcases List.mem_cons.mp h with rfl | h'
        · exact Or.inl rfl
        · rcases ih c h' with h2 | ⟨u, hu, hcu⟩
          · exact Or.inl h2
          · exact Or.inr ⟨u, List.mem_cons_of_mem _ hu, hcu⟩

theorem map_joinSep (f : Char → Char) (sep : Char) :
    ∀ ws : List (List Char),
    (joinSep sep ws).map f = joinSep (f sep) (ws.map (List.map f)) := by
  intro ws
  induction ws with
  | nil => rfl
  | cons w ws ih =>
    cases ws with
    | nil => rfl
    | cons w' ws' =>
      show ((w ++ sep :: joinSep sep (w' :: ws')).map f) = _
      rw [List.map_append, List.map_cons, ih]
      rfl

theorem map_toLower_id (l : List Char) (h : ∀ c ∈ l, isLowerAlnum c = true) :
    l.map Char.toLower = l := by
  induction l with
  | nil => rfl
  | cons c cs ih =>
    rw [List.map_cons, (lowerAlnum_facts c (h c (List.mem_cons_self _ _))).1,
      ih (fun d hd => h d (List.mem_cons_of_mem _ hd))]

theorem map_toLower_toUpper (l : List Char) (h : ∀ c ∈ l, isLowerAlnum c = true) :
    (l.map Char.toUpper).map Char.toLower = l := by
  induction l with
  | nil => rfl
  | cons c cs ih =>
    rw [List.map_cons, List.map_cons,
      (lowerAlnum_facts c (h c (List.mem_cons_self _ _))).2.1,
      ih (fun d hd => h d (List.mem_cons_of_mem _ hd))]

theorem capitalizeWord_eq (c : Char) (rest : List Char)
    (h : ∀ x ∈ rest, isLowerAlnum x = true) :
    capitalizeWord (c :: rest) = Char.toUpper c :: rest := by
  show Char.toUpper c :: rest.map Char.toLower = _
  rw [map_toLower_id rest h]

theorem map_toLower_capitalize (w : List Char)
    (h : ∀ c ∈ w, isLowerAlnum c = true) :
    (capitalizeWord w).map Char.toLower = w := by
  cases w with
  | nil => rfl
  | cons c rest =>
    rw [capitalizeWord_eq c rest (fun x hx => h x (List.mem_cons_of_mem _ hx)),
      List.map_cons, (lowerAlnum_facts c (h c (List.mem_cons_self _ _))).2.1,
      map_toLower_id rest (fun x hx => h x (List.mem_cons_of_mem _ hx))]

theorem strSplitPass1_cons (c : Char) (cs : List Char) (b : Bool) :
    strSplitPass1 (c :: cs) b =
      if isAlnumChar c then c :: strSplitPass1 cs false
      else if isSepChar c then
        if b then strSplitPass1 cs true else ' ' :: strSplitPass1 cs true
      else strSplitPass1 cs b := rfl

/-- Pushing a block of alphanumeric characters through the first pass copies
it verbatim and leaves the `prev_space` flag cleared (unless the block is
empty). -/
theorem strSplitPass1_append_alnum :
    ∀ (w l : List Char) (b : Bool), (∀ c ∈ w, isAlnumChar c = true) →
    strSplitPass1 (w ++ l) b = w ++ strSplitPass1 l (if w = [] then b else false) := by
  intro w
  induction w with
  | nil => intro l b _; simp
  | cons c cs ih =>
    intro l b h
    rw [List.cons_append, strSplitPass1_cons, if_pos (h c (List.mem_cons_self _ _)),
      ih l false (fun d hd => h d (List.mem_cons_of_mem _ hd))]
    cases cs with
    | nil => simp
    | cons d ds => simp

theorem strSplitPass1_all_alnum (l : List Char) (b : Bool)
    (h : ∀ c ∈ l, isAlnumChar c = true) : strSplitPass1 l b = l := by
  have h2 := strSplitPass1_append_alnum l [] b h
  rw [List.append_nil] at h2
  rw [h2, show strSplitPass1 [] (if l = [] then b else false) = [] from rfl,
    List.append_nil]

/-- The first pass turns a separator-joined token string into the
space-joined token string. -/
theorem strSplitPass1_joinSep (sep : Char) (hsep1 : isAlnumChar sep = false)
    (hsep2 : isSepChar sep = true) :
    ∀ (ws : List (List Char)) (b : Bool),
    (∀ w ∈ ws, w ≠ [] ∧ ∀ c ∈ w, isAlnumChar c = true) →
    strSplitPass1 (joinSep sep ws) b = joinSep ' ' ws := by
  intro ws
  induction ws with
  | nil => intro b _; rfl
  | cons w ws ih =>
    intro b h
    obtain ⟨hw, hwc⟩ := h w (List.mem_cons_self _ _)
    cases ws with
    | nil =>
      show strSplitPass1 w b = w
      exact strSplitPass1_all_alnum w b hwc
    | cons w' ws' =>
      show strSplitPass1 (w ++ sep :: joinSep sep (w' :: ws')) b = _
      rw [strSplitPass1_append_alnum w _ b hwc, if_neg hw, strSplitPass1_cons,
        if_neg (by simp [hsep1]), if_pos (by simp [hsep2]), if_neg (by simp),
        ih true (fun u hu => h u (List.mem_cons_of_mem _ hu))]
      rfl

theorem strSplitPass2_cons_cons (c next : Char) (rest : List Char) :
    strSplitPass2 (c :: next :: rest) =
      if isLowerChar c && isUpperChar next then c :: ' ' :: strSplitPass2 (next :: rest)
      else c :: strSplitPass2 (next :: rest) := rfl

/-- On a string with no lowercase-to-uppercase transition the second pass
is the identity. -/
theorem strSplitPass2_eq_self : ∀ l : List Char,
    List.Chain' (fun a b => camelBoundary a b = false) l →
    strSplitPass2 l = l := by
  intro l
  induction l with
  | nil => intro _; rfl
  | cons d cs ih =>
    intro h
    cases cs with
    | nil => rfl
    | cons e rest =>
      obtain ⟨h1, h2⟩ := List.chain'_cons.mp h
      unfold camelBoundary at h1
      rw [strSplitPass2_cons_cons, if_neg (by simp [h1]), ih h2]

theorem chain'_of_tail_not_upper : ∀ l : List Char,
    (∀ c ∈ l.tail, isUpperChar c = false) →
    List.Chain' (fun a b => camelBoundary a b = false) l := by
  intro l
  induction l with
  | nil => intro _; exact List.chain'_nil
  | cons d cs ih =>
    intro h
    cases cs with
    | nil => exact List.chain'_singleton d
    | cons e rest =>
      refine List.chain'_cons.mpr ⟨?_, ?_⟩
      · unfold camelBoundary
        rw [h e (List.mem_cons_self _ _)]
        simp
      · refine ih ?_
        intro c hc
        exact h c (List.mem_cons_of_mem _ hc)

theorem chain'_of_all_not_lower : ∀ l : List Char,
    (∀ c ∈ l, isLowerChar c = false) →
    List.Chain' (fun a b => camelBoundary a b = false) l := by
  intro l
  induction l with
  | nil => intro _; exact List.chain'_nil
  | cons d cs ih =>
    intro h
    cases cs with
    | nil => exact List.chain'_singleton d
    | cons e rest =>
      refine List.chain'_cons.mpr ⟨?_, ?_⟩
      · unfold camelBoundary
        rw [h d (List.mem_cons_self _ _)]
        simp
      · exact ih (fun c hc => h c (List.mem_cons_of_mem _ hc))

/-- Joining transition-free blocks with a separator that is neither
lowercase nor uppercase yields a transition-free string. -/
theorem chain'_joinSep (sep : Char) (h1 : isLowerChar sep = false)
    (h2 : isUpperChar sep = false) :
    ∀ ws : List (List Char),
    (∀ w ∈ ws, List.Chain' (fun a b => camelBoundary a b = false) w) →
    List.Chain' (fun a b => camelBoundary a b = false) (joinSep sep ws) := by
  intro ws
  induction ws with
  | nil => intro _; exact List.chain'_nil
  | cons w ws ih =>
    intro h
    cases ws with
    | nil => exact h w (List.mem_cons_self _ _)
    | cons w' ws' =>
      show List.Chain' _ (w ++ sep :: joinSep sep (w' :: ws'))
      refine List.chain'_append.mpr ⟨h w (List.mem_cons_self _ _), ?_, ?_⟩
      · refine List.chain'_cons'.mpr ⟨?_, ?_⟩
        · intro y _
          unfold camelBoundary
          rw [h1]
          simp
        · exact ih (fun u hu => h u (List.mem_cons_of_mem _ hu))
      · intro x _ y hy
        simp only [List.head?_cons, Option.mem_def, Option.some.injEq] at hy
        subst hy
        unfold camelBoundary
        rw [h2]
        simp

/-- The second pass distributes over an append whose pieces meet without a
transition. -/
theorem strSplitPass2_append_safe : ∀ (xs ys : List Char),
    List.Chain' (fun a b => camelBoundary a b = false) xs →
    (∀ a b, xs.getLast? = some a → ys.head? = some b → camelBoundary a b = false) →
    strSplitPass2 (xs ++ ys) = xs ++ strSplitPass2 ys := by
  intro xs
  induction xs with
  | nil => intro ys _ _; rfl
  | cons a xs' ih =>
    intro ys hchain hjoint
    cases xs' with
    | nil =>
      cases ys with
      | nil => rfl
      | cons b ys' =>
        show strSplitPass2 (a :: b :: ys') = _
        have hj := hjoint a b rfl rfl
        unfold camelBoundary at hj
        rw [strSplitPass2_cons_cons, if_neg (by simp [hj])]
        rfl
    | cons a' xs'' =>
      obtain ⟨h1, h2⟩ := List.chain'_cons.mp hchain
      unfold camelBoundary at h1
      show strSplitPass2 (a :: ((a' :: xs'') ++ ys)) = _
      rw [List.cons_append, strSplitPass2_cons_cons, if_neg (by simp [h1]),
        ← List.cons_append,
        ih ys h2 (fun x y hx hy => hjoint x y ((List.getLast?_cons_cons).symm ▸ hx) hy)]
      rfl

/-- The second pass inserts a space at an append point that is a
lowercase-to-uppercase transition. -/
theorem strSplitPass2_append_boundary : ∀ (xs : List Char) (b : Char) (ys : List Char),
    xs ≠ [] →
    List.Chain' (fun a b => camelBoundary a b = false) xs →
    (∀ a, xs.getLast? = some a → camelBoundary a b = true) →
    strSplitPass2 (xs ++ b :: ys) = xs ++ ' ' :: strSplitPass2 (b :: ys) := by
  intro xs
  induction xs with
  | nil => intro b ys hne _ _; exact absurd rfl hne
  | cons a xs' ih =>
    intro b ys _ hchain hlast
    cases xs' with
    | nil =>
      show strSplitPass2 (a :: b :: ys) = _
      have hj := hlast a rfl
      unfold camelBoundary at hj
      rw [strSplitPass2_cons_cons, if_pos (by simp_all)]
      rfl
    | cons a' xs'' =>
      obtain ⟨h1, h2⟩ := List.chain'_cons.mp hchain
      unfold camelBoundary at h1
      show strSplitPass2 (a :: ((a' :: xs'') ++ b :: ys)) = _
      rw [List.cons_append, strSplitPass2_cons_cons, if_neg (by simp [h1]),
        ← List.cons_append,
        ih b ys (by simp) h2 (fun x hx => hlast x ((List.getLast?_cons_cons).symm ▸ hx))]
      rfl

theorem splitWhitespaceAux_cons (c : Char) (cs acc : List Char) :
    splitWhitespaceAux (c :: cs) acc =
      if c = ' ' then
        if acc.isEmpty then splitWhitespaceAux cs []
        else acc.reverse :: splitWhitespaceAux cs []
      else splitWhitespaceAux cs (c :: acc) := rfl

/-- Scanning a space-free block accumulates it (reversed) and moves on. -/
theorem splitWhitespaceAux_append_nonspace : ∀ (w l acc : List Char),
    (∀ c ∈ w, ¬ c = ' ') →
    splitWhitespaceAux (w ++ l) acc = splitWhitespaceAux l (w.reverse ++ acc) := by
  intro w
  induction w with
  | nil => intro l acc _; simp
  | cons c cs ih =>
    intro l acc h
    rw [List.cons_append, splitWhitespaceAux_cons, if_neg (h c (List.mem_cons_self _ _)),
      ih l (c :: acc) (fun d hd => h d (List.mem_cons_of_mem _ hd))]
    simp

/-- Splitting a space-joined list of non-empty space-free fragments
recovers exactly those fragments. -/
theorem splitWhitespaceList_joinSep : ∀ ws : List (List Char),
    (∀ w ∈ ws, w ≠ [] ∧ ∀ c ∈ w, ¬ c = ' ') →
    splitWhitespaceList (joinSep ' ' ws) = ws := by
  intro ws
  induction ws with
  | nil => intro _; rfl
  | cons w ws ih =>
    intro h
    obtain ⟨hw, hwc⟩ := h w (List.mem_cons_self _ _)
    cases ws with
    | nil =>
      show splitWhitespaceAux w [] = [w]
      have h2 := splitWhitespaceAux_append_nonspace w [] [] hwc
      rw [List.append_nil] at h2
      rw [h2]
      show (if (w.reverse ++ []).isEmpty then [] else [(w.reverse ++ []).reverse]) = _
      rw [if_neg (by simp [List.isEmpty_iff, hw])]
      simp
    | cons w' ws' =>
      show splitWhitespaceAux (w ++ ' ' :: joinSep ' ' (w' :: ws')) [] = _
      rw [splitWhitespaceAux_append_nonspace w _ [] hwc, splitWhitespaceAux_cons,
        if_pos rfl, if_neg (by simp [List.isEmpty_iff, hw])]
      have h3 := ih (fun u hu => h u (List.mem_cons_of_mem _ hu))
      show _ :: splitWhitespaceList (joinSep ' ' (w' :: ws')) = _
      rw [h3]
      simp

theorem tokensOk_alnum (ws : List (List Char)) (h : tokensOk ws) :
    ∀ w ∈ ws, w ≠ [] ∧ ∀ c ∈ w, isAlnumChar c = true := by
  intro w hw
  exact ⟨(h w hw).1, fun c hc => (lowerAlnum_facts c ((h w hw).2 c hc)).2.2.1⟩

theorem tokensOk_chain (ws : List (List Char)) (h : tokensOk ws) :
    ∀ w ∈ ws, List.Chain' (fun a b => camelBoundary a b = false) w := by
  intro w hw
  refine chain'_of_tail_not_upper w ?_
  intro c hc
  exact (lowerAlnum_facts c ((h w hw).2 c (List.mem_of_mem_tail hc))).2.2.2.2.1

theorem mapTokens_toLower_id (ws : List (List Char)) (h : tokensOk ws) :
    ws.map (List.map Char.toLower) = ws := by
  induction ws with
  | nil => rfl
  | cons w ws ih =>
    rw [List.map_cons, map_toLower_id w (h w (List.mem_cons_self _ _)).2,
      ih (fun u hu => h u (List.mem_cons_of_mem _ hu))]

theorem mapTokens_toLower_toUpper (ws : List (List Char)) (h : tokensOk ws) :
    (ws.map (List.map Char.toUpper)).map (List.map Char.toLower) = ws := by
  induction ws with
  | nil => rfl
  | cons w ws ih =>
    rw [List.map_cons, List.map_cons, map_toLower_toUpper w (h w (List.mem_cons_self _ _)).2,
      ih (fun u hu => h u (List.mem_cons_of_mem _ hu))]

theorem mapTokens_toLower_capitalize (ws : List (List Char)) (h : tokensOk ws) :
    (ws.map capitalizeWord).map (List.map Char.toLower) = ws := by
  induction ws with
  | nil => rfl
  | cons w ws ih =>
    rw [List.map_cons, List.map_cons, map_toLower_capitalize w (h w (List.mem_cons_self _ _)).2,
      ih (fun u hu => h u (List.mem_cons_of_mem _ hu))]

/-- Lowercasing and whitespace-splitting a space-joined block list whose
lowercase image is the token list recovers the token list. -/
theorem splitWS_map_toLower_joinSep (blocks ws : List (List Char))
    (hlower : blocks.map (List.map Char.toLower) = ws) (hws : tokensOk ws) :
    splitWhitespaceList ((joinSep ' ' blocks).map Char.toLower) = ws := by
  rw [map_joinSep, show Char.toLower ' ' = ' ' from rfl, hlower]
  refine splitWhitespaceList_joinSep ws ?_
  intro w hw
  exact ⟨(hws w hw).1, fun c hc =>
    (lowerAlnum_facts c ((hws w hw).2 c hc)).2.2.2.2.2.2.1⟩

/-- Core re-tokenization lemma: a separator-joined list of transition-free
alphanumeric blocks whose lowercase image is the token list tokenizes back
to the token list. -/
theorem str_split_joinSep_of (sep : Char) (hs1 : isSepChar sep = true)
    (hs2 : isAlnumChar sep = false) (blocks ws : List (List Char))
    (htok : ∀ w ∈ blocks, w ≠ [] ∧ ∀ c ∈ w, isAlnumChar c = true)
    (hchain : ∀ w ∈ blocks, List.Chain' (fun a b => camelBoundary a b = false) w)
    (hlower : blocks.map (List.map Char.toLower) = ws) (hws : tokensOk ws) :
    str_split (joinSep sep blocks) = ws := by
  show splitWhitespaceList ((strSplitPass2 (strSplitPass1 (joinSep sep blocks) false)).map Char.toLower) = ws
  rw [strSplitPass1_joinSep sep hs2 hs1 blocks false htok,
    strSplitPass2_eq_self _ (chain'_joinSep ' ' (by decide) (by decide) blocks hchain)]
  exact splitWS_map_toLower_joinSep blocks ws hlower hws

/-- Re-tokenizing the lowercased separator-joined rendering (snake, kebab,
dot, lower) recovers the token list. -/
theorem str_split_render_sep (sep : Char) (hs1 : isSepChar sep = true)
    (hs2 : isAlnumChar sep = false) (hs3 : Char.toLower sep = sep)
    (ws : List (List Char)) (hws : tokensOk ws) :
    str_split ((joinSep sep ws).map Char.toLower) = ws := by
  rw [map_joinSep, hs3, mapTokens_toLower_id ws hws]
  exact str_split_joinSep_of sep hs1 hs2 ws ws (tokensOk_alnum ws hws)
    (tokensOk_chain ws hws) (mapTokens_toLower_id ws hws) hws

/-- Re-tokenizing the UPPER CASE rendering recovers the token list. -/
theorem str_split_render_upper (ws : List (List Char)) (hws : tokensOk ws) :
    str_split ((joinSep ' ' ws).map Char.toUpper) = ws := by
  rw [map_joinSep, show Char.toUpper ' ' = ' ' from rfl]
  refine str_split_joinSep_of ' ' (by decide) (by decide)
    (ws.map (List.map Char.toUpper)) ws ?_ ?_ (mapTokens_toLower_toUpper ws hws) hws
  · intro w hw
    rcases List.mem_map.mp hw with ⟨u, hu, rfl⟩
    refine ⟨by simpa using (hws u hu).1, ?_⟩
    intro c hc
    rcases List.mem_map.mp hc with ⟨d, hd, rfl⟩
    exact (lowerAlnum_facts d ((hws u hu).2 d hd)).2.2.2.1
  · intro w hw
    rcases List.mem_map.mp hw with ⟨u, hu, rfl⟩
    refine chain'_of_all_not_lower _ ?_
    intro c hc
    rcases List.mem_map.mp hc with ⟨d, hd, rfl⟩
    exact (lowerAlnum_facts d ((hws u hu).2 d hd)).2.2.2.2.2.1

theorem capitalized_block_ok (w : List Char) (hne : w ≠ [])
    (hch : ∀ c ∈ w, isLowerAlnum c = true) :
    capitalizeWord w ≠ [] ∧ (∀ c ∈ capitalizeWord w, isAlnumChar c = true) ∧
    List.Chain' (fun a b => camelBoundary a b = false) (capitalizeWord w) := by
  cases w with
  | nil => exact absurd rfl hne
  | cons c0 rest =>
    rw [capitalizeWord_eq c0 rest (fun x hx => hch x (List.mem_cons_of_mem _ hx))]
    refine ⟨by simp, ?_, ?_⟩
    · intro c hc
      rcases List.mem_cons.mp hc with rfl | hc'
      · exact (lowerAlnum_facts c0 (hch c0 (List.mem_cons_self _ _))).2.2.2.1
      · exact (lowerAlnum_facts c (hch c (List.mem_cons_of_mem _ hc'))).2.2.1
    · refine chain'_of_tail_not_upper _ ?_
      intro c hc
      exact (lowerAlnum_facts c (hch c (List.mem_cons_of_mem _ hc))).2.2.2.2.1

/-- Re-tokenizing the Title Case rendering recovers the token list. -/
theorem str_split_render_title (ws : List (List Char)) (hws : tokensOk ws) :
    str_split (joinSep ' ' (ws.map capitalizeWord)) = ws := by
  refine str_split_joinSep_of ' ' (by decide) (by decide)
    (ws.map capitalizeWord) ws ?_ ?_ (mapTokens_toLower_capitalize ws hws) hws
  · intro w hw
    rcases List.mem_map.mp hw with ⟨u, hu, rfl⟩
    exact ⟨(capitalized_block_ok u (hws u hu).1 (hws u hu).2).1,
      (capitalized_block_ok u (hws u hu).1 (hws u hu).2).2.1⟩
  · intro w hw
    rcases List.mem_map.mp hw with ⟨u, hu, rfl⟩
    exact (capitalized_block_ok u (hws u hu).1 (hws u hu).2).2.2

/-- The title renderer's push-and-pop loop produces the space-joined
capitalized tokens. -/
theorem flatten_map_concat_space : ∀ vs : List (List Char), vs ≠ [] →
    (vs.map (fun v => v ++ [' '])).flatten = joinSep ' ' vs ++ [' '] := by
  intro vs
  induction vs with
  | nil => intro h; exact absurd rfl h
  | cons v vs ih =>
    intro _
    cases vs with
    | nil => simp [joinSep]
    | cons v' vs' =>
      rw [List.map_cons, List.flatten_cons, ih (by simp)]
      show v ++ [' '] ++ (joinSep ' ' (v' :: vs') ++ [' ']) = (v ++ ' ' :: joinSep ' ' (v' :: vs')) ++ [' ']
      simp

theorem title_eq_joinSep (vs : List (List Char)) :
    ((vs.map (fun v => v ++ [' '])).flatten).dropLast = joinSep ' ' vs := by
  cases vs with
  | nil => rfl
  | cons v vs' =>
    rw [flatten_map_concat_space (v :: vs') (by simp), List.dropLast_concat]

theorem camelToken_tokensOk (ws : List (List Char))
    (h : ∀ w ∈ ws, camelToken w) : tokensOk ws := by
  intro w hw
  obtain ⟨hlen, hch, _, _⟩ := h w hw
  refine ⟨?_, hch⟩
  intro he
  subst he
  simp at hlen

theorem camelToken_getLast (w : List Char) (h : camelToken w) :
    ∀ a, w.getLast? = some a → isLowerChar a = true := by
  intro a ha
  have h2 : w.getLastD ' ' = a := by
    rw [List.getLastD_eq_getLast?, ha]
    rfl
  rw [← h2]
  exact h.2.2.2

theorem camelToken_shape (w : List Char) (h : camelToken w) :
    ∃ c0 w1, w = c0 :: w1 ∧ w1 ≠ [] ∧
      capitalizeWord w = Char.toUpper c0 :: w1 ∧
      isLowerChar c0 = true ∧
      (∀ a, (capitalizeWord w).getLast? = some a → isLowerChar a = true) := by
  obtain ⟨hlen, hch, hhead, hlast⟩ := h
  cases w with
  | nil => simp at hlen
  | cons c0 w1 =>
    cases w1 with
    | nil => simp at hlen
    | cons c1 rest =>
      have hcap := capitalizeWord_eq c0 (c1 :: rest)
        (fun x hx => hch x (List.mem_cons_of_mem _ hx))
      refine ⟨c0, c1 :: rest, rfl, by simp, hcap, by simpa using hhead, ?_⟩
      intro a ha
      rw [hcap, List.getLast?_cons_cons] at ha
      have h2 : (c0 :: c1 :: rest).getLastD ' ' = a := by
        rw [List.getLastD_cons, List.getLastD_eq_getLast?, ha]
        rfl
      rw [← h2]
      exact hlast

/-- The second pass of the tokenizer turns the concatenation of
capitalized camel tokens into their space-joined form: each token joint is
a lowercase-to-uppercase transition and each token interior is
transition-free. -/
theorem strSplitPass2_flatten_capitalized : ∀ ws : List (List Char),
    (∀ w ∈ ws, camelToken w) →
    strSplitPass2 ((ws.map capitalizeWord).flatten) =
      joinSep ' ' (ws.map capitalizeWord) := by
  intro ws
  induction ws with
  | nil => intro _; rfl
  | cons w ws ih =>
    intro h
    have hw := h w (List.mem_cons_self _ _)
    have hch := hw.2.1
    obtain ⟨c0, w1, rfl, hw1ne, hcapeq, hc0, hlastlow⟩ := camelToken_shape _ hw
    have hcap := capitalized_block_ok (c0 :: w1) (by simp) hch
    cases ws with
    | nil =>
      rw [List.map_cons, List.map_nil, List.flatten_cons, List.flatten_nil,
        List.append_nil, strSplitPass2_eq_self _ hcap.2.2]
      rfl
    | cons w' ws' =>
      have hw' := h w' (List.mem_cons_of_mem _ (List.mem_cons_self _ _))
      obtain ⟨c0', w1', rfl, hw1ne', hcapeq', hc0', _⟩ := camelToken_shape _ hw'
      have hexp : (((c0' :: w1') :: ws').map capitalizeWord).flatten
          = Char.toUpper c0' :: (w1' ++ (ws'.map capitalizeWord).flatten) := by
        rw [List.map_cons, List.flatten_cons, hcapeq']
        rfl
      rw [List.map_cons, List.flatten_cons, hexp,
        strSplitPass2_append_boundary _ _ _ hcap.1 hcap.2.2 ?_, ← hexp,
        ih (fun u hu => h u (List.mem_cons_of_mem _ hu))]
      · rw [List.map_cons]
        rfl
      · intro a ha
        unfold camelBoundary
        rw [hlastlow a ha]
        have h9 : isUpperChar (Char.toUpper c0') = true := by
          rw [(lowerAlnum_facts c0'
            (hw'.2.1 c0' (List.mem_cons_self _ _))).2.2.2.2.2.2.2.2, hc0']
        rw [h9]
        rfl

/-- Re-tokenizing the PascalCase rendering of camel-safe tokens recovers
the token list. -/
theorem str_split_pascal_render (ws : List (List Char))
    (h : ∀ w ∈ ws, camelToken w) :
    str_split ((ws.map capitalizeWord).flatten) = ws := by
  have hws : tokensOk ws := camelToken_tokensOk ws h
  show splitWhitespaceList ((strSplitPass2 (strSplitPass1
    ((ws.map capitalizeWord).flatten) false)).map Char.toLower) = ws
  rw [strSplitPass1_all_alnum _ false ?_, strSplitPass2_flatten_capitalized ws h]
  · exact splitWS_map_toLower_joinSep _ ws (mapTokens_toLower_capitalize ws hws) hws
  · intro c hc
    rcases List.mem_flatten.mp hc with ⟨blk, hblk, hcblk⟩
    rcases List.mem_map.mp hblk with ⟨u, hu, rfl⟩
    exact (capitalized_block_ok u (hws u hu).1 (hws u hu).2).2.1 c hcblk

/-- Re-tokenizing the camelCase rendering of camel-safe tokens recovers
the token list. -/
theorem str_split_camel_render (w : List Char) (ws' : List (List Char))
    (h : ∀ u ∈ w :: ws', camelToken u) :
    str_split (w.map Char.toLower ++ (ws'.map capitalizeWord).flatten) = w :: ws' := by
  have hws : tokensOk (w :: ws') := camelToken_tokensOk _ h
  have hw := h w (List.mem_cons_self _ _)
  have hwch := (hws w (List.mem_cons_self _ _)).2
  have hwne := (hws w (List.mem_cons_self _ _)).1
  rw [map_toLower_id w hwch]
  show splitWhitespaceList ((strSplitPass2 (strSplitPass1
    (w ++ (ws'.map capitalizeWord).flatten) false)).map Char.toLower) = w :: ws'
  rw [strSplitPass1_all_alnum _ false ?_]
  · cases ws' with
    | nil =>
      rw [List.map_nil, List.flatten_nil, List.append_nil,
        strSplitPass2_eq_self w (tokensOk_chain _ hws w (List.mem_cons_self _ _))]
      exact splitWS_map_toLower_joinSep [w] [w]
        (by rw [List.map_cons, List.map_nil, map_toLower_id w hwch]) hws
    | cons w2 ws'' =>
      have hw2 := h w2 (List.mem_cons_of_mem _ (List.mem_cons_self _ _))
      obtain ⟨c0', w1', rfl, hw1ne', hcapeq', hc0', _⟩ := camelToken_shape _ hw2
      have hexp : (((c0' :: w1') :: ws'').map capitalizeWord).flatten
          = Char.toUpper c0' :: (w1' ++ (ws''.map capitalizeWord).flatten) := by
        rw [List.map_cons, List.flatten_cons, hcapeq']
        rfl
      rw [hexp, strSplitPass2_append_boundary _ _ _ hwne
          (tokensOk_chain _ hws w (List.mem_cons_self _ _)) ?_, ← hexp,
        strSplitPass2_flatten_capitalized _
          (fun u hu => h u (List.mem_cons_of_mem _ hu))]
      · refine splitWS_map_toLower_joinSep (w :: ((c0' :: w1') :: ws'').map capitalizeWord)
          (w :: (c0' :: w1') :: ws'') ?_ hws
        rw [List.map_cons, map_toLower_id w hwch,
          mapTokens_toLower_capitalize _ (fun u hu => hws u (List.mem_cons_of_mem _ hu))]
      · intro a ha
        unfold camelBoundary
        rw [camelToken_getLast w hw a ha]
        have h9 : isUpperChar (Char.toUpper c0') = true := by
          rw [(lowerAlnum_facts c0'
            (hw2.2.1 c0' (List.mem_cons_self _ _))).2.2.2.2.2.2.2.2, hc0']
        rw [h9]
        rfl
  · intro c hc
    rcases List.mem_append.mp hc with hcw | hcf
    · exact (lowerAlnum_facts c (hwch c hcw)).2.2.1
    · rcases List.mem_flatten.mp hcf with ⟨blk, hblk, hcblk⟩
      rcases List.mem_map.mp hblk with ⟨u, hu, rfl⟩
      have hu' := hws u (List.mem_cons_of_mem _ hu)
      exact (capitalized_block_ok u hu'.1 hu'.2).2.1 c hcblk

/-! ## Path-normalizer properties -/

theorem normalizePathLoop_eq_foldl : ∀ (cs : List PathComponent) (acc : List PathComponent),
    normalizePathLoop cs acc =
      (cs.foldl (fun stack c =>
        match c with
        | PathComponent.curDir => stack
        | PathComponent.parentDir => if stack.isEmpty then stack else stack.tail
        | c => c :: stack) acc.reverse).reverse := by
  intro cs
  induction cs with
  | nil => intro acc; simp [normalizePathLoop]
  | cons c rest ih =>
    intro acc
    cases c with
    | parentDir =>
      show normalizePathLoop rest (if acc.isEmpty then acc else acc.dropLast) = _
      rw [List.foldl_cons, ih]
      congr 2
      show (if acc.isEmpty then acc else acc.dropLast).reverse =
        (if acc.reverse.isEmpty then acc.reverse else acc.reverse.tail)
      cases acc with
      | nil => simp
      | cons a as =>
        rw [if_neg (by simp), if_neg (by simp [List.isEmpty_iff]), List.tail_reverse]
    | curDir =>
      show normalizePathLoop rest acc = _
      rw [List.foldl_cons]
      exact ih acc
    | rootDir =>
      show normalizePathLoop rest (acc ++ [PathComponent.rootDir]) = _
      rw [List.foldl_cons, ih]
      congr 2
      show (acc ++ [PathComponent.rootDir]).reverse = PathComponent.rootDir :: acc.reverse
      simp
    | normal s =>
      show normalizePathLoop rest (acc ++ [PathComponent.normal s]) = _
      rw [List.foldl_cons, ih]
      congr 2
      show (acc ++ [PathComponent.normal s]).reverse = PathComponent.normal s :: acc.reverse
      simp

/-- C3: the source's `normalize_path` computes exactly the left-to-right
stack walk described by the specification: a regular component pushes, `.`
is dropped, `..` pops the most recent component when the stack is non-empty
and is silently ignored when it is empty, and an all-consumed result is the
single current-directory component. -/
theorem c3_normalize_path_spec_walk (cs : List PathComponent) :
    normalize_path cs = normalizeSpecWalk cs := by
  show (if (normalizePathLoop cs []).isEmpty then [PathComponent.curDir]
      else normalizePathLoop cs []) = _
  rw [normalizePathLoop_eq_foldl cs []]
  unfold normalizeSpecWalk
  simp only [List.reverse_nil]
  generalize (cs.foldl (fun stack c =>
      match c with
      | PathComponent.curDir => stack
      | PathComponent.parentDir => if stack.isEmpty then stack else stack.tail
      | c => c :: stack) []) = st
  cases st with
  | nil => simp
  | cons a as =>
    rw [if_neg (by simp [List.isEmpty_iff]), if_neg (by simp)]

theorem collapseSlashLoop_cons (b : Bool) (c : Char) (cs : List Char) (prev : Char) :
    collapseSlashLoop b (c :: cs) prev =
      if b && (c == '/') && (prev == '/') then collapseSlashLoop b cs prev
      else c :: collapseSlashLoop b cs c := rfl

theorem collapseSlashLoop_off : ∀ (l : List Char) (prev : Char),
    collapseSlashLoop false l prev = l := by
  intro l
  induction l with
  | nil => intro prev; rfl
  | cons c cs ih =>
    intro prev
    rw [collapseSlashLoop_cons, if_neg (by simp), ih]

/-- C2 (amended): with every toggle off, `fmt_path_str_custom` returns the
input with each backslash replaced by a forward slash (the unconditional replacement
performed when the intermediate path value is turned back into a string),
except that an exact `./` outcome becomes empty; the trailing-slash restore
never fires because the replacement preserves a trailing `/`. -/
theorem c2_all_off_behavior (stripAnsiFn : List Char → Option (List Char))
    (path : List Char) :
    fmt_path_str_custom stripAnsiFn path allTogglesOff =
      Except.ok (if path.map replaceBackslash = ['.', '/'] then []
        else path.map replaceBackslash) := by
  show Except.ok (fmtPathAfterStrip path (path.getLast? == some '/') allTogglesOff) = _
  have hslash : ((path.getLast? == some '/') &&
      !((path.map replaceBackslash).getLast? == some '/')) = false := by
    rcases hcase : (path.getLast? == some '/') with h0 | h1
    · simp
    · have h2 : path.getLast? = some '/' := by simpa using hcase
      rw [List.getLast?_map, h2]
      simp [replaceBackslash]
  simp only [fmtPathAfterStrip, allTogglesOff, collapseSlashLoop_off, hslash,
    Bool.false_eq_true, if_false]

/-! ## Claim theorems -/

theorem fromString_of_str_split_eq (x y : List Char) (h : str_split x = str_split y) :
    CaseFormatter.fromString x = CaseFormatter.fromString y :=
  congrArg CaseFormatter.mk h

theorem to_title_case_eq (g : CaseFormatter) :
    g.to_title_case = joinSep ' ' (g.content.map capitalizeWord) := by
  rw [← title_eq_joinSep]
  show ((g.content.map (fun w => capitalizeWord w ++ [' '])).flatten).dropLast = _
  rw [List.map_map]
  rfl

/-- C1 counterexample: for the input "a1_b" and the camelCase style,
rendering, re-tokenizing and rendering again changes the string (the tokens
["a1","b"] render to "a1B"; the digit before the boundary prevents the
lowercase-to-uppercase transition from being re-detected, so re-tokenizing
yields the single token "a1b"). -/
theorem c1_camel_not_idempotent :
    (CaseFormatter.fromString
        ((CaseFormatter.fromString "a1_b".toList).to_camel_case)).to_camel_case ≠
      (CaseFormatter.fromString "a1_b".toList).to_camel_case := by
  decide

/-- C1 (amended): rendering a style, building a fresh CaseFormatter from
the rendered string and rendering again reproduces the first rendering for
the six separator-joined styles (kebab, snake, dot, Title, lower, UPPER)
on every input; for camelCase and PascalCase the same holds under the
additional hypothesis that every token of the input's tokenization has at
least two characters and begins and ends with a lowercase letter. -/
theorem c1_render_idempotent (s : List Char) :
    ((CaseFormatter.fromString ((CaseFormatter.fromString s).to_kebab_case)).to_kebab_case
      = (CaseFormatter.fromString s).to_kebab_case) ∧
    ((CaseFormatter.fromString ((CaseFormatter.fromString s).to_snake_case)).to_snake_case
      = (CaseFormatter.fromString s).to_snake_case) ∧
    ((CaseFormatter.fromString ((CaseFormatter.fromString s).to_dot_case)).to_dot_case
      = (CaseFormatter.fromString s).to_dot_case) ∧
    ((CaseFormatter.fromString ((CaseFormatter.fromString s).to_title_case)).to_title_case
      = (CaseFormatter.fromString s).to_title_case) ∧
    ((CaseFormatter.fromString ((CaseFormatter.fromString s).to_lower_case)).to_lower_case
      = (CaseFormatter.fromString s).to_lower_case) ∧
    ((CaseFormatter.fromString ((CaseFormatter.fromString s).to_upper_case)).to_upper_case
      = (CaseFormatter.fromString s).to_upper_case) ∧
    ((∀ w ∈ (CaseFormatter.fromString s).content, camelToken w) →
      ((CaseFormatter.fromString ((CaseFormatter.fromString s).to_camel_case)).to_camel_case
        = (CaseFormatter.fromString s).to_camel_case) ∧
      ((CaseFormatter.fromString ((CaseFormatter.fromString s).to_pascal_case)).to_pascal_case
        = (CaseFormatter.fromString s).to_pascal_case)) := by
  have htok := str_split_tokens s
  refine ⟨?_, ?_, ?_, ?_, ?_, ?_, ?_⟩
  · exact congrArg CaseFormatter.to_kebab_case (fromString_of_str_split_eq _ _
      (by exact str_split_render_sep '-' (by decide) (by decide) (by decide) _ htok))
  · exact congrArg CaseFormatter.to_snake_case (fromString_of_str_split_eq _ _
      (by exact str_split_render_sep '_' (by decide) (by decide) (by decide) _ htok))
  · exact congrArg CaseFormatter.to_dot_case (fromString_of_str_split_eq _ _
      (by exact str_split_render_sep '.' (by decide) (by decide) (by decide) _ htok))
  · refine congrArg CaseFormatter.to_title_case (fromString_of_str_split_eq _ _ ?_)
    rw [to_title_case_eq]
    exact str_split_render_title _ htok
  · exact congrArg CaseFormatter.to_lower_case (fromString_of_str_split_eq _ _
      (by exact str_split_render_sep ' ' (by decide) (by decide) (by decide) _ htok))
  · exact congrArg CaseFormatter.to_upper_case (fromString_of_str_split_eq _ _
      (by exact str_split_render_upper _ htok))
  · intro hcam
    constructor
    · refine congrArg CaseFormatter.to_camel_case (fromString_of_str_split_eq _ _ ?_)
      show str_split (CaseFormatter.to_camel_case ⟨str_split s⟩) = str_split s
      rcases hsplit : str_split s with _ | ⟨w, ws'⟩
      · show str_split (match ([] : List (List Char)) with
          | [] => []
          | w :: ws => w.map Char.toLower ++ (ws.map capitalizeWord).flatten) = []
        rfl
      · show str_split (w.map Char.toLower ++ (ws'.map capitalizeWord).flatten) = w :: ws'
        exact str_split_camel_render w ws' (hsplit ▸ hcam)
    · refine congrArg CaseFormatter.to_pascal_case (fromString_of_str_split_eq _ _ ?_)
      show str_split (((str_split s).map capitalizeWord).flatten) = str_split s
      exact str_split_pascal_render _ hcam

/-- C1 witness: on "brew_coffee" every hypothesis of the amended statement
holds and the camelCase round trip is the identity. -/
theorem c1_witness :
    (∀ w ∈ (CaseFormatter.fromString "brew_coffee".toList).content, camelToken w) ∧
    (CaseFormatter.fromString
        ((CaseFormatter.fromString "brew_coffee".toList).to_camel_case)).to_camel_case
      = (CaseFormatter.fromString "brew_coffee".toList).to_camel_case :=
  ⟨by decide, ((c1_render_idempotent "brew_coffee".toList).2.2.2.2.2.2 (by decide)).1⟩

/-- C5: the literal camelCase scenarios of the specification, including the
deletion of the unrecognized `&` before boundary detection. -/
theorem c5_camel_literals :
    (CaseFormatter.fromString "brew_coffee".toList).to_camel_case = "brewCoffee".toList ∧
    (CaseFormatter.fromString "brew, coffee".toList).to_camel_case = "brewCoffee".toList ∧
    (CaseFormatter.fromString "Brew.Coffee".toList).to_camel_case = "brewCoffee".toList ∧
    (CaseFormatter.fromString "b&rewCoffee".toList).to_camel_case = "brewCoffee".toList ∧
    (CaseFormatter.fromString "BREW COFFEE".toList).to_camel_case = "brewCoffee".toList ∧
    (CaseFormatter.fromString "bRewCofFee".toList).to_camel_case = "bRewCofFee".toList := by
  decide

/-- C6: the token sequence built at CaseFormatter construction consists of
non-empty, all-lowercase-alphanumeric tokens.  (Immutability is structural:
the token list is a plain field with no mutating operation.) -/
theorem c6_token_invariant (input : List Char) :
    ∀ w ∈ (CaseFormatter.fromString input).content,
      w ≠ [] ∧ ∀ c ∈ w, isLowerAlnum c = true :=
  str_split_tokens input

/-- C6 witness: the invariant evaluated on a concrete token of a concrete
construction. -/
theorem c6_witness :
    "brew".toList ∈ (CaseFormatter.fromString "brew coffee".toList).content ∧
    ("brew".toList ≠ [] ∧ ∀ c ∈ "brew".toList, isLowerAlnum c = true) :=
  ⟨by decide, c6_token_invariant "brew coffee".toList "brew".toList (by decide)⟩

/-- C8: for a non-empty input with a non-empty token list, rendering
snake_case and re-tokenizing reproduces exactly the token sequence. -/
theorem c8_snake_round_trip (s : List Char) (h1 : s ≠ [])
    (h2 : (CaseFormatter.fromString s).content ≠ []) :
    (CaseFormatter.fromString
        ((CaseFormatter.fromString s).to_snake_case)).content
      = (CaseFormatter.fromString s).content :=
  str_split_render_sep '_' (by decide) (by decide) (by decide) _ (str_split_tokens s)

/-- C8 witness: the snake_case round trip on "brewCoffee". -/
theorem c8_witness :
    "brewCoffee".toList ≠ [] ∧
    (CaseFormatter.fromString "brewCoffee".toList).content ≠ [] ∧
    (CaseFormatter.fromString
        ((CaseFormatter.fromString "brewCoffee".toList).to_snake_case)).content
      = (CaseFormatter.fromString "brewCoffee".toList).content :=
  ⟨by decide, by decide,
    c8_snake_round_trip "brewCoffee".toList (by decide) (by decide)⟩

theorem fmt_path_str_custom_of_strip (f : List Char → Option (List Char))
    (path : List Char) (config : PathFormatConfig) (v : List Char)
    (hc : config.strip_ansi = true) (hf : f path = some v) :
    fmt_path_str_custom f path config =
      Except.ok (fmtPathAfterStrip v (path.getLast? == some '/') config) := by
  unfold fmt_path_str_custom
  rw [hc, if_pos rfl, hf]

/-- C2 counterexample: with every toggle disabled and no trailing slash in
sight, the input "a\b" still comes back changed, as "a/b": the
backslash-to-slash replacement applied when the intermediate path value is
turned back into a string is unconditional. -/
theorem c2_all_off_changes_backslash :
    fmt_path_str_custom (fun l => some l) "a\\b".toList allTogglesOff
      = Except.ok "a/b".toList ∧
    ¬ "a/b".toList = "a\\b".toList :=
  ⟨rfl, by decide⟩

/-- C4: the literal default-configuration scenarios, under the hypothesis
(true of the external ANSI stripper) that the stripper leaves each of these
escape-free strings unchanged. -/
theorem c4_literal_scenarios (f : List Char → Option (List Char))
    (h1 : f "C:\\Users\\\\test".toList = some "C:\\Users\\\\test".toList)
    (h2 : f "/path/with/*unfriendly?chars".toList
      = some "/path/with/*unfriendly?chars".toList)
    (h3 : f "/home/user/dir/".toList = some "/home/user/dir/".toList)
    (h4 : f "/home/my_user/DOCS/JVCS_TEST/Workspace/../Vault/".toList
      = some "/home/my_user/DOCS/JVCS_TEST/Workspace/../Vault/".toList)
    (h5 : f "./home/file.txt".toList = some "./home/file.txt".toList)
    (h6 : f "./".toList = some "./".toList) :
    fmt_path_str f "C:\\Users\\\\test".toList = Except.ok "C:/Users/test".toList ∧
    fmt_path_str f "/path/with/*unfriendly?chars".toList
      = Except.ok "/path/with/unfriendlychars".toList ∧
    fmt_path_str f "/home/user/dir/".toList = Except.ok "/home/user/dir/".toList ∧
    fmt_path_str f "/home/my_user/DOCS/JVCS_TEST/Workspace/../Vault/".toList
      = Except.ok "/home/my_user/DOCS/JVCS_TEST/Vault/".toList ∧
    fmt_path_str f "./home/file.txt".toList = Except.ok "home/file.txt".toList ∧
    fmt_path_str f "./".toList = Except.ok "".toList := by
  refine ⟨?_, ?_, ?_, ?_, ?_, ?_⟩
  · rw [fmt_path_str, fmt_path_str_custom_of_strip f _ _ _ rfl h1]
    rfl
  · rw [fmt_path_str, fmt_path_str_custom_of_strip f _ _ _ rfl h2]
    rfl
  · rw [fmt_path_str, fmt_path_str_custom_of_strip f _ _ _ rfl h3]
    rfl
  · rw [fmt_path_str, fmt_path_str_custom_of_strip f _ _ _ rfl h4]
    rfl
  · rw [fmt_path_str, fmt_path_str_custom_of_strip f _ _ _ rfl h5]
    rfl
  · rw [fmt_path_str, fmt_path_str_custom_of_strip f _ _ _ rfl h6]
    rfl

/-- C4 witness: the scenarios evaluated with the identity stripper. -/
theorem c4_witness :
    fmt_path_str (fun l => some l) "C:\\Users\\\\test".toList
      = Except.ok "C:/Users/test".toList ∧
    fmt_path_str (fun l => some l) "./".toList = Except.ok "".toList :=
  ⟨(c4_literal_scenarios (fun l => some l) rfl rfl rfl rfl rfl rfl).1,
    (c4_literal_scenarios (fun l => some l) rfl rfl rfl rfl rfl rfl).2.2.2.2.2⟩

/-- C7: the normalizer fails exactly when escape-stripping is enabled and
the stripped bytes are not valid text, and the failure is the sole error
kind `InvalidUtf8`; with escape-stripping disabled it returns `Ok` on every
input and configuration. -/
theorem c7_error_only_from_strip (f : List Char → Option (List Char))
    (path : List Char) (config : PathFormatConfig) :
    (fmt_path_str_custom f path config = Except.error PathFormatError.InvalidUtf8 ↔
      config.strip_ansi = true ∧ f path = none) ∧
    (config.strip_ansi = false →
      ∃ out, fmt_path_str_custom f path config = Except.ok out) := by
  unfold fmt_path_str_custom
  rcases hs : config.strip_ansi with h0 | h1
  · rw [if_neg (by simp)]
    constructor
    · constructor
      · intro h
        cases h
      · rintro ⟨h, -⟩
        cases h
    · intro _
      exact ⟨_, rfl⟩
  · rw [if_pos rfl]
    cases hf : f path with
    | none =>
      constructor
      · constructor
        · intro _
          exact ⟨rfl, rfl⟩
        · intro _
          rfl
      · intro hcontra
        cases hcontra
    | some v =>
      constructor
      · constructor
        · intro h
          cases h
        · rintro ⟨-, hnone⟩
          cases hnone
      · intro hcontra
        cases hcontra

/-- C9: a parent-directory reference pops the root component: the default
configuration maps "/../a" to the relative path "a". -/
theorem c9_parent_pops_root (f : List Char → Option (List Char))
    (h : f "/../a".toList = some "/../a".toList) :
    fmt_path_str f "/../a".toList = Except.ok "a".toList := by
  rw [fmt_path_str, fmt_path_str_custom_of_strip f _ _ _ rfl h]
  rfl

/-- C9 witness: the evaluation with the identity stripper. -/
theorem c9_witness :
    fmt_path_str (fun l => some l) "/../a".toList = Except.ok "a".toList :=
  c9_parent_pops_root (fun l => some l) rfl

/-- C10: with parent-directory resolution on and slash collapsing off, the
re-parse into components still collapses consecutive slashes and drops an
interior `.`: "a//./b" maps to "a/b" for every such configuration. -/
theorem c10_resolve_collapses (f : List Char → Option (List Char))
    (config : PathFormatConfig)
    (hr : config.resolve_parent_dirs = true)
    (hc : config.collapse_consecutive_slashes = false)
    (hf : f "a//./b".toList = some "a//./b".toList) :
    fmt_path_str_custom f "a//./b".toList config = Except.ok "a/b".toList := by
  rcases config with ⟨sa, su, rp, cc, eb⟩
  simp only at hr hc
  subst hr
  subst hc
  cases sa <;> cases su <;> cases eb <;>
    first
      | rfl
      | (rw [fmt_path_str_custom_of_strip f _ _ _ rfl hf]; rfl)

/-- C10 witness: one such configuration evaluated with the identity
stripper. -/
theorem c10_witness :
    fmt_path_str_custom (fun l => some l) "a//./b".toList
      ⟨true, true, true, false, true⟩ = Except.ok "a/b".toList :=
  c10_resolve_collapses (fun l => some l) ⟨true, true, true, false, true⟩ rfl rfl rfl

end JustFmt
